import Mathlib

/-!
Verification of the request-signing core of the kraken client
(`src/netlify/functions/hello-world/src/kraken.rs`, function `private` and
its helpers).  Strings are embedded as `List Char`, byte sequences as
`List Nat` (each element kept below 256 by explicit `% 256` / masking, as
in the machine code).  The SHA-256 / SHA-512 / HMAC / base64 primitives
called by the source through the `crypto` and `base64` crates are embedded
by their standard specifications (FIPS 180-4, RFC 2104, RFC 4648), fully
executable.
-/

/-- Bytes of a string literal, as characters. -/
def strL (s : String) : List Char := s.data

/-- Right rotation of an `b`-bit word. -/
def rotr (b n x : Nat) : Nat := ((x >>> n) ||| (x <<< (b - n))) % 2 ^ b

/-- Big-endian serialization of `n` into exactly `k` bytes. -/
def toBE (k n : Nat) : List Nat :=
  (List.range k).map (fun i => (n >>> (8 * (k - 1 - i))) % 256)

/-- Big-endian deserialization of a byte list into a number. -/
def fromBE (bs : List Nat) : Nat := bs.foldl (fun a b => a * 256 + b) 0

/-- Parameters of a SHA-2 family member (word size, block geometry,
round count, the four sigma rotation/shift triples, initial state and
round constants). -/
structure ShaCfg where
  wordBits : Nat
  wordBytes : Nat
  blockBytes : Nat
  lenBytes : Nat
  nRounds : Nat
  bs0a : Nat
  bs0b : Nat
  bs0c : Nat
  bs1a : Nat
  bs1b : Nat
  bs1c : Nat
  ss0a : Nat
  ss0b : Nat
  ss0c : Nat
  ss1a : Nat
  ss1b : Nat
  ss1c : Nat
  iv0 : Nat
  iv1 : Nat
  iv2 : Nat
  iv3 : Nat
  iv4 : Nat
  iv5 : Nat
  iv6 : Nat
  iv7 : Nat
  k : List Nat

/-- The eight working registers of a SHA-2 compression. -/
structure ShaRegs where
  ra : Nat
  rb : Nat
  rc : Nat
  rd : Nat
  re : Nat
  rf : Nat
  rg : Nat
  rh : Nat

def shaBigSigma0 (c : ShaCfg) (x : Nat) : Nat :=
  (rotr c.wordBits c.bs0a x) ^^^ (rotr c.wordBits c.bs0b x) ^^^ (rotr c.wordBits c.bs0c x)

def shaBigSigma1 (c : ShaCfg) (x : Nat) : Nat :=
  (rotr c.wordBits c.bs1a x) ^^^ (rotr c.wordBits c.bs1b x) ^^^ (rotr c.wordBits c.bs1c x)

def shaSmallSigma0 (c : ShaCfg) (x : Nat) : Nat :=
  (rotr c.wordBits c.ss0a x) ^^^ (rotr c.wordBits c.ss0b x) ^^^ (x >>> c.ss0c)

def shaSmallSigma1 (c : ShaCfg) (x : Nat) : Nat :=
  (rotr c.wordBits c.ss1a x) ^^^ (rotr c.wordBits c.ss1b x) ^^^ (x >>> c.ss1c)

/-- One SHA-2 round on the register file, fed one round constant and one
message-schedule word. -/
def shaRound (c : ShaCfg) (r : ShaRegs) (kw : Nat × Nat) : ShaRegs :=
  let m := 2 ^ c.wordBits
  let s1 := shaBigSigma1 c r.re
  let ch := (r.re &&& r.rf) ^^^ (((m - 1) ^^^ r.re) &&& r.rg)
  let t1 := (r.rh + s1 + ch + kw.1 + kw.2) % m
  let s0 := shaBigSigma0 c r.ra
  let mj := (r.ra &&& r.rb) ^^^ (r.ra &&& r.rc) ^^^ (r.rb &&& r.rc)
  let t2 := (s0 + mj) % m
  ⟨(t1 + t2) % m, r.ra, r.rb, r.rc, (r.rd + t1) % m, r.re, r.rf, r.rg⟩

/-- Extend the message schedule by `n` further words. -/
def shaExtend (c : ShaCfg) : Nat → List Nat → List Nat
  | 0, w => w
  | n + 1, w =>
    let l := w.length
    let x := (w.getD (l - 16) 0 + shaSmallSigma0 c (w.getD (l - 15) 0) +
              w.getD (l - 7) 0 + shaSmallSigma1 c (w.getD (l - 2) 0)) % 2 ^ c.wordBits
    shaExtend c n (w ++ [x])

/-- Split a block of bytes into `count` big-endian words of `wb` bytes. -/
def bytesToWords (wb count : Nat) (block : List Nat) : List Nat :=
  (List.range count).map (fun i => fromBE ((block.drop (wb * i)).take wb))

/-- SHA-2 compression of one message block into the chaining state. -/
def shaCompress (c : ShaCfg) (r : ShaRegs) (block : List Nat) : ShaRegs :=
  let m := 2 ^ c.wordBits
  let w0 := bytesToWords c.wordBytes (c.blockBytes / c.wordBytes) block
  let w := shaExtend c (c.nRounds - c.blockBytes / c.wordBytes) w0
  let t := (c.k.zip w).foldl (shaRound c) r
  ⟨(r.ra + t.ra) % m, (r.rb + t.rb) % m, (r.rc + t.rc) % m, (r.rd + t.rd) % m,
   (r.re + t.re) % m, (r.rf + t.rf) % m, (r.rg + t.rg) % m, (r.rh + t.rh) % m⟩

/-- Merkle–Damgard padding: a 0x80 byte, zeros, then the bit length
big-endian in `lenBytes` bytes, to a multiple of the block size. -/
def shaPad (c : ShaCfg) (msg : List Nat) : List Nat :=
  msg ++ 128 ::
    (List.replicate ((c.blockBytes - (msg.length + 1 + c.lenBytes) % c.blockBytes) % c.blockBytes) 0
      ++ toBE c.lenBytes (8 * msg.length))

/-- Split a list into chunks of `n` elements (fuelled, structurally
recursive so that it evaluates inside the kernel). -/
def chunksF (n : Nat) : Nat → List Nat → List (List Nat)
  | 0, _ => []
  | _, [] => []
  | fuel + 1, bs => bs.take n :: chunksF n fuel (bs.drop n)

/-- The full SHA-2 hash for a given configuration. -/
def shaHash (c : ShaCfg) (msg : List Nat) : List Nat :=
  let padded := shaPad c msg
  let blocks := chunksF c.blockBytes padded.length padded
  let r0 : ShaRegs := ⟨c.iv0, c.iv1, c.iv2, c.iv3, c.iv4, c.iv5, c.iv6, c.iv7⟩
  let r := blocks.foldl (shaCompress c) r0
  toBE c.wordBytes r.ra ++ toBE c.wordBytes r.rb ++ toBE c.wordBytes r.rc ++
    toBE c.wordBytes r.rd ++ toBE c.wordBytes r.re ++ toBE c.wordBytes r.rf ++
    toBE c.wordBytes r.rg ++ toBE c.wordBytes r.rh

/-- FIPS 180-4 parameters of SHA-256. -/
def sha256Cfg : ShaCfg :=
  { wordBits := 32, wordBytes := 4, blockBytes := 64, lenBytes := 8, nRounds := 64,
    bs0a := 2, bs0b := 13, bs0c := 22,
    bs1a := 6, bs1b := 11, bs1c := 25,
    ss0a := 7, ss0b := 18, ss0c := 3,
    ss1a := 17, ss1b := 19, ss1c := 10,
    iv0 := 1779033703, iv1 := 3144134277, iv2 := 1013904242, iv3 := 2773480762,
    iv4 := 1359893119, iv5 := 2600822924, iv6 := 528734635, iv7 := 1541459225,
    k := [
      1116352408, 1899447441, 3049323471, 3921009573, 961987163, 1508970993,
      2453635748, 2870763221, 3624381080, 310598401, 607225278, 1426881987,
      1925078388, 2162078206, 2614888103, 3248222580, 3835390401, 4022224774,
      264347078, 604807628, 770255983, 1249150122, 1555081692, 1996064986,
      2554220882, 2821834349, 2952996808, 3210313671, 3336571891, 3584528711,
      113926993, 338241895, 666307205, 773529912, 1294757372, 1396182291,
      1695183700, 1986661051, 2177026350, 2456956037, 2730485921, 2820302411,
      3259730800, 3345764771, 3516065817, 3600352804, 4094571909, 275423344,
      430227734, 506948616, 659060556, 883997877, 958139571, 1322822218,
      1537002063, 1747873779, 1955562222, 2024104815, 2227730452, 2361852424,
      2428436474, 2756734187, 3204031479, 3329325298] }

/-- FIPS 180-4 parameters of SHA-512. -/
def sha512Cfg : ShaCfg :=
  { wordBits := 64, wordBytes := 8, blockBytes := 128, lenBytes := 16, nRounds := 80,
    bs0a := 28, bs0b := 34, bs0c := 39,
    bs1a := 14, bs1b := 18, bs1c := 41,
    ss0a := 1, ss0b := 8, ss0c := 7,
    ss1a := 19, ss1b := 61, ss1c := 6,
    iv0 := 7640891576956012808, iv1 := 13503953896175478587,
    iv2 := 4354685564936845355, iv3 := 11912009170470909681,
    iv4 := 5840696475078001361, iv5 := 11170449401992604703,
    iv6 := 2270897969802886507, iv7 := 6620516959819538809,
    k := [
      4794697086780616226, 8158064640168781261, 13096744586834688815, 16840607885511220156,
      4131703408338449720, 6480981068601479193, 10538285296894168987, 12329834152419229976,
      15566598209576043074, 1334009975649890238, 2608012711638119052, 6128411473006802146,
      8268148722764581231, 9286055187155687089, 11230858885718282805, 13951009754708518548,
      16472876342353939154, 17275323862435702243, 1135362057144423861, 2597628984639134821,
      3308224258029322869, 5365058923640841347, 6679025012923562964, 8573033837759648693,
      10970295158949994411, 12119686244451234320, 12683024718118986047, 13788192230050041572,
      14330467153632333762, 15395433587784984357, 489312712824947311, 1452737877330783856,
      2861767655752347644, 3322285676063803686, 5560940570517711597, 5996557281743188959,
      7280758554555802590, 8532644243296465576, 9350256976987008742, 10552545826968843579,
      11727347734174303076, 12113106623233404929, 14000437183269869457, 14369950271660146224,
      15101387698204529176, 15463397548674623760, 17586052441742319658, 1182934255886127544,
      1847814050463011016, 2177327727835720531, 2830643537854262169, 3796741975233480872,
      4115178125766777443, 5681478168544905931, 6601373596472566643, 7507060721942968483,
      8399075790359081724, 8693463985226723168, 9568029438360202098, 10144078919501101548,
      10430055236837252648, 11840083180663258601, 13761210420658862357, 14299343276471374635,
      14566680578165727644, 15097957966210449927, 16922976911328602910, 17689382322260857208,
      500013540394364858, 748580250866718886, 1242879168328830382, 1977374033974150939,
      2944078676154940804, 3659926193048069267, 4368137639120453308, 4836135668995329356,
      5532061633213252278, 6448918945643986474, 6902733635092675308, 7801388544844847127] }

/-- SHA-256 (as provided to the source by `crypto::sha2::Sha256`). -/
def sha256 (msg : List Nat) : List Nat := shaHash sha256Cfg msg

/-- SHA-512 (as provided to the source by `crypto::sha2::Sha512`). -/
def sha512 (msg : List Nat) : List Nat := shaHash sha512Cfg msg

/-- HMAC-SHA512, RFC 2104 (as provided to the source by
`crypto::hmac::Hmac::new(Sha512::new(), key)`): keys longer than the
128-byte block are hashed first, the key is zero-padded to the block
size, and two nested SHA-512 calls are made over the opad/ipad-masked
key and the message. -/
def hmacSha512 (key msg : List Nat) : List Nat :=
  let k0 := if 128 < key.length then sha512 key else key
  let k1 := k0 ++ List.replicate (128 - k0.length) 0
  sha512 ((k1.map (fun b => b ^^^ 92)) ++ sha512 ((k1.map (fun b => b ^^^ 54)) ++ msg))

/-- The base64 standard alphabet (RFC 4648). -/
def b64Alphabet : List Char := strL "ABCDEFGHIJKLMNOPQRSTUVWXYZabcdefghijklmnopqrstuvwxyz0123456789+/"

def b64Char (n : Nat) : Char := b64Alphabet.getD n 'A'

/-- Index of a character in the base64 alphabet, `none` for a character
outside the alphabet. -/
def b64Index (c : Char) : Option Nat :=
  let i := b64Alphabet.indexOf c
  if i < 64 then some i else none

/-- Base64 encoding with `=` padding, standard alphabet (the behaviour of
`base64::encode` in the source). -/
def base64encode : List Nat → List Char
  | [] => []
  | [b1] => [b64Char (b1 >>> 2), b64Char ((b1 % 4) <<< 4), '=', '=']
  | [b1, b2] => [b64Char (b1 >>> 2), b64Char (((b1 % 4) <<< 4) + (b2 >>> 4)),
                 b64Char ((b2 % 16) <<< 2), '=']
  | b1 :: b2 :: b3 :: rest =>
    b64Char (b1 >>> 2) :: b64Char (((b1 % 4) <<< 4) + (b2 >>> 4)) ::
      b64Char (((b2 % 16) <<< 2) + (b3 >>> 6)) :: b64Char (b3 % 64) ::
      base64encode rest

/-- Base64 decoding, standard alphabet (the behaviour of `base64::decode`
in the source): symbols outside the alphabet, a length of 1 mod 4, `=`
other than as final padding, and non-zero trailing bits are rejected;
absent final padding is accepted. -/
def base64decode : List Char → Option (List Nat)
  | [] => some []
  | [c1, c2] =>
    match b64Index c1, b64Index c2 with
    | some i1, some i2 =>
      if i2 % 16 = 0 then some [(i1 <<< 2) + (i2 >>> 4)] else none
    | _, _ => none
  | [c1, c2, c3] =>
    match b64Index c1, b64Index c2, b64Index c3 with
    | some i1, some i2, some i3 =>
      if i3 % 4 = 0 then
        some [(i1 <<< 2) + (i2 >>> 4), ((i2 % 16) <<< 4) + (i3 >>> 2)]
      else none
    | _, _, _ => none
  | c1 :: c2 :: c3 :: c4 :: rest =>
    match b64Index c1, b64Index c2 with
    | some i1, some i2 =>
      if rest = [] ∧ c3 = '=' ∧ c4 = '=' then
        if i2 % 16 = 0 then some [(i1 <<< 2) + (i2 >>> 4)] else none
      else if rest = [] ∧ c4 = '=' then
        match b64Index c3 with
        | some i3 =>
          if i3 % 4 = 0 then
            some [(i1 <<< 2) + (i2 >>> 4), ((i2 % 16) <<< 4) + (i3 >>> 2)]
          else none
        | none => none
      else
        match b64Index c3, b64Index c4 with
        | some i3, some i4 =>
          match base64decode rest with
          | some bs =>
            some (((i1 <<< 2) + (i2 >>> 4)) :: (((i2 % 16) <<< 4) + (i3 >>> 2)) ::
                  (((i3 % 4) <<< 6) + i4) :: bs)
          | none => none
        | _, _ => none
    | _, _ => none
  | _ => none

/-- UTF-8 encoding of one character (`str::as_bytes` in the source). -/
def utf8Char (c : Char) : List Nat :=
  let n := c.toNat
  if n < 128 then [n]
  else if n < 2048 then [192 + n / 64, 128 + n % 64]
  else if n < 65536 then [224 + n / 4096, 128 + (n / 64) % 64, 128 + n % 64]
  else [240 + n / 262144, 128 + (n / 4096) % 64, 128 + (n / 64) % 64, 128 + n % 64]

/-- UTF-8 bytes of a string. -/
def utf8Bytes (s : List Char) : List Nat := s.flatMap utf8Char

/-- Decimal digit character. -/
def digitChar (d : Nat) : Char := Char.ofNat (48 + d)

/-- Decimal rendering of a number, fuelled (structurally recursive so
that it evaluates inside the kernel); mirrors Rust's `format!("{}", n)`
for unsigned integers. -/
def natDecAux : Nat → Nat → List Char
  | 0, _ => []
  | fuel + 1, n =>
    if n < 10 then [digitChar n]
    else natDecAux fuel (n / 10) ++ [digitChar (n % 10)]

def natDecimal (n : Nat) : List Char := natDecAux (n + 1) n

/-- Reading a digit string back as a number (most significant first). -/
def parseDec (l : List Char) : Nat := l.foldl (fun a c => 10 * a + (c.toNat - 48)) 0

/-- Left zero-padding to width `k`; mirrors Rust's `{:09}` format
specifier (`k = 9`), which pads with zeros to a minimum width. -/
def zeroPad (k : Nat) (l : List Char) : List Char := List.replicate (k - l.length) '0' ++ l

/-- The nonce of `private`:
`format!("{}{:09}", timestamp.as_secs(), timestamp.subsec_nanos())`,
a function of the clock reading `(secs, nanos)`. -/
def nonceChars (secs nanos : Nat) : List Char := natDecimal secs ++ zeroPad 9 (natDecimal nanos)

/-- Lexicographic order on clock readings `(secs, nanos)`. -/
def readingLt (r1 r2 : Nat × Nat) : Prop := r1.1 < r2.1 ∨ (r1.1 = r2.1 ∧ r1.2 < r2.2)

instance (r1 r2 : Nat × Nat) : Decidable (readingLt r1 r2) :=
  inferInstanceAs (Decidable (r1.1 < r2.1 ∨ (r1.1 = r2.1 ∧ r1.2 < r2.2)))

/-- The integer values of the nonces generated at a sequence of clock
readings. -/
def nonceValues (rs : List (Nat × Nat)) : List Nat :=
  rs.map (fun r => parseDec (nonceChars r.1 r.2))

/-- The body fold of `private`:
`params.iter().fold(String::new(), |data, item| data + item.0 + "=" + item.1 + "&")`
followed by `body.pop()` (which removes the final `&`, and does nothing
on the empty string).  Parameter sets are embedded as association lists
in iteration order. -/
def encodeBody (ps : List (List Char × List Char)) : List Char :=
  (ps.foldl (fun data item => data ++ item.1 ++ '=' :: item.2 ++ ['&']) []).dropLast

/-- Entries joined by a separator with no trailing separator (the spec's
description of the encoder output shape). -/
def joinAmp : List (List Char) → List Char
  | [] => []
  | [p] => p
  | p :: q :: ps => p ++ '&' :: joinAmp (q :: ps)

/-- One `key=value` entry, key and value passed through unescaped. -/
def entryChars (p : List Char × List Char) : List Char := p.1 ++ '=' :: p.2

/-- Modelled from the spec: the encoder contract "a `key=value` pair per
entry joined by `&` with no trailing separator", values passed through
unescaped. -/
def specEncode (ps : List (List Char × List Char)) : List Char :=
  joinAmp (ps.map entryChars)

/-- `HashMap::insert`: replace the value of an existing key in place,
append a fresh key (iteration order of a `HashMap` is arbitrary; the
association list records one iteration order). -/
def insertParam (k v : List Char) : List (List Char × List Char) → List (List Char × List Char)
  | [] => [(k, v)]
  | (k', v') :: t => if k' = k then (k, v) :: t else (k', v') :: insertParam k v t

/-- `HashMap::get`-style lookup on the association-list embedding. -/
def lookupParam (k : List Char) : List (List Char × List Char) → Option (List Char)
  | [] => none
  | (k', v) :: t => if k' = k then some v else lookupParam k t

/-- Keys are pairwise distinct (always true of a `HashMap`). -/
def keysNodup (ps : List (List Char × List Char)) : Prop := (ps.map Prod.fst).Nodup

instance : DecidablePred keysNodup := fun ps =>
  inferInstanceAs (Decidable (ps.map Prod.fst).Nodup)

/-- Uppercase hexadecimal digit. -/
def hexDigit (d : Nat) : Char := if d < 10 then Char.ofNat (48 + d) else Char.ofNat (55 + d)

/-- One byte under `application/x-www-form-urlencoded` escaping as done
by `reqwest`'s `.form(...)` serializer (`serde_urlencoded`): ASCII
alphanumerics and `*`, `-`, `.`, `_` pass through, space becomes `+`,
every other byte becomes `%XX` with uppercase hex. -/
def formByte (b : Nat) : List Char :=
  if b = 32 then ['+']
  else if (48 ≤ b ∧ b ≤ 57) ∨ (65 ≤ b ∧ b ≤ 90) ∨ (97 ≤ b ∧ b ≤ 122) ∨
          b = 42 ∨ b = 45 ∨ b = 46 ∨ b = 95 then [Char.ofNat b]
  else ['%', hexDigit (b / 16), hexDigit (b % 16)]

def formEsc (s : List Char) : List Char := (utf8Bytes s).flatMap formByte

/-- The body serialized by `reqwest`'s `.form(params)` at line 144 of the
source: pairs in the map's iteration order, escaped, joined by `&`. -/
def formUrlEncode (ps : List (List Char × List Char)) : List Char :=
  joinAmp (ps.map (fun p => formEsc p.1 ++ '=' :: formEsc p.2))

/-- State of a `crypto::hmac::Hmac` value: the key fixed at `new`, and
the accumulated `input` stream; `result` runs the MAC over the stream. -/
structure HmacS where
  hkey : List Nat
  hmsg : List Nat

def hmacNew (k : List Nat) : HmacS := ⟨k, []⟩

def hmacInput (s : HmacS) (d : List Nat) : HmacS := ⟨s.hkey, s.hmsg ++ d⟩

def hmacResult (s : HmacS) : List Nat := hmacSha512 s.hkey s.hmsg

/-- State of a `crypto::sha2::Sha256` value: the accumulated `input`
stream; `result` hashes it. -/
structure Sha256S where
  sbuf : List Nat

def sha256New : Sha256S := ⟨[]⟩

def sha256Input (s : Sha256S) (d : List Nat) : Sha256S := ⟨s.sbuf ++ d⟩

def sha256Result (s : Sha256S) : List Nat := sha256 s.sbuf

/-- Lines 126-138 of the source, the signing operation: decode the
secret from base64 (`unwrap` modelled as `none` on failure), stream the
nonce and body bytes into SHA-256, stream the path bytes and then the
32-byte digest into HMAC-SHA512 keyed with the decoded secret, and
base64-encode the MAC. -/
def signImpl (secret path nonce : List Char) (bodyBytes : List Nat) : Option (List Char) :=
  match base64decode secret with
  | none => none
  | some key =>
    let hmac0 := hmacNew key
    let bodyHasher := sha256Input (sha256Input sha256New (utf8Bytes nonce)) bodyBytes
    let hmac1 := hmacInput hmac0 (utf8Bytes path)
    let out := sha256Result bodyHasher
    let hmac2 := hmacInput hmac1 out
    some (base64encode (hmacResult hmac2))

/-- `kraken::Account`. -/
structure AccountL where
  key : List Char
  secret : List Char

/-- The request descriptor assembled by `private` and handed to the
transport: method `POST`, the absolute URL, the `API-Key` and `API-Sign`
header values, and the body serialized by `.form(params)`. -/
structure SignedReq where
  rmethod : List Char
  url : List Char
  apiKey : List Char
  apiSign : List Char
  rbody : List Char

/-- Lines 108-147 of the source, the pure content of `private`: the
path and URL, the clock-derived nonce, the in-place insertion of the
nonce into the caller's `params` (the updated map is returned as the
second component, modelling the `&mut` argument), the fold-encoded body,
the signature, and the assembled request.  The clock reading
`(secs, nanos)` is an explicit input.  `none` models the `unwrap` panic
on a secret that is not valid base64. -/
def privateResult (account : AccountL) (method : List Char)
    (params : List (List Char × List Char)) (secs nanos : Nat) :
    Option (SignedReq × List (List Char × List Char)) :=
  let path := strL "/0/private/" ++ method
  let url := strL "https://api.kraken.com" ++ path
  let nonce := nonceChars secs nanos
  let params' := insertParam (strL "nonce") nonce params
  let body := encodeBody params'
  match base64decode account.secret with
  | none => none
  | some secret =>
    let hmac0 := hmacNew secret
    let bodyHasher := sha256Input (sha256Input sha256New (utf8Bytes nonce)) (utf8Bytes body)
    let hmac1 := hmacInput hmac0 (utf8Bytes path)
    let out := sha256Result bodyHasher
    let hmac2 := hmacInput hmac1 out
    let sign := base64encode (hmacResult hmac2)
    some (⟨strL "POST", url, account.key, sign, formUrlEncode params'⟩, params')

/-! ## Helper lemmas: decimal rendering and parsing -/

theorem parseDec_shift (l : List Char) (a : Nat) :
    List.foldl (fun a c => 10 * a + (c.toNat - 48)) a l = a * 10 ^ l.length + parseDec l := by
  induction l generalizing a with
  | nil => simp [parseDec]
  | cons c t ih =>
    show List.foldl (fun a c => 10 * a + (c.toNat - 48)) (10 * a + (c.toNat - 48)) t =
      a * 10 ^ (c :: t).length + parseDec (c :: t)
    rw [ih]
    have h2 : parseDec (c :: t) = (c.toNat - 48) * 10 ^ t.length + parseDec t := by
      show List.foldl (fun a c => 10 * a + (c.toNat - 48)) (10 * 0 + (c.toNat - 48)) t = _
      rw [ih]; ring_nf
    rw [h2, List.length_cons]; ring

theorem parseDec_append (l1 l2 : List Char) :
    parseDec (l1 ++ l2) = parseDec l1 * 10 ^ l2.length + parseDec l2 := by
  show List.foldl _ 0 (l1 ++ l2) = _
  rw [List.foldl_append, parseDec_shift]
  rfl

theorem digitChar_toNat (d : Nat) (h : d < 10) : (digitChar d).toNat = 48 + d := by
  interval_cases d <;> decide

theorem parseDec_natDecAux (fuel : Nat) : ∀ n, n < fuel → parseDec (natDecAux fuel n) = n := by
  induction fuel with
  | zero => intro n h; omega
  | succ fuel ih =>
    intro n h
    by_cases h10 : n < 10
    · simp only [natDecAux, if_pos h10, parseDec, List.foldl_cons, List.foldl_nil,
        digitChar_toNat n h10]
      omega
    · have hdiv : n / 10 < fuel := by
        have := Nat.div_lt_self (by omega : 0 < n) (by omega : 1 < 10)
        omega
      simp only [natDecAux, if_neg h10]
      rw [parseDec_append, ih (n / 10) hdiv]
      have hd : parseDec [digitChar (n % 10)] = n % 10 := by
        simp only [parseDec, List.foldl_cons, List.foldl_nil,
          digitChar_toNat (n % 10) (Nat.mod_lt n (by omega))]
        omega
      rw [hd]
      simp only [List.length_cons, List.length_nil, pow_one]
      omega

theorem parseDec_natDecimal (n : Nat) : parseDec (natDecimal n) = n :=
  parseDec_natDecAux (n + 1) n (Nat.lt_succ_self n)

theorem natDecAux_length (fuel : Nat) :
    ∀ n k, n < fuel → n < 10 ^ k → 1 ≤ k → (natDecAux fuel n).length ≤ k := by
  induction fuel with
  | zero => intro n k h; omega
  | succ fuel ih =>
    intro n k h hk h1
    by_cases h10 : n < 10
    · simp only [natDecAux, if_pos h10, List.length_cons, List.length_nil]
      omega
    · have hk2 : 2 ≤ k := by
        rcases Nat.lt_or_ge k 2 with hlt | hge
        · interval_cases k
          simp only [pow_one] at hk
          omega
        · exact hge
      have hdiv : n / 10 < fuel := by
        have := Nat.div_lt_self (by omega : 0 < n) (by omega : 1 < 10)
        omega
      have hpow : n / 10 < 10 ^ (k - 1) := by
        rw [Nat.div_lt_iff_lt_mul (by omega : 0 < 10)]
        have : 10 ^ (k - 1) * 10 = 10 ^ k := by
          rw [← pow_succ]
          congr 1
          omega
        omega
      have := ih (n / 10) (k - 1) hdiv hpow (by omega)
      simp only [natDecAux, if_neg h10, List.length_append, List.length_cons, List.length_nil]
      omega

theorem natDecimal_length9 (n : Nat) (h : n < 10 ^ 9) : (natDecimal n).length ≤ 9 :=
  natDecAux_length (n + 1) n 9 (Nat.lt_succ_self n) h (by omega)

theorem parseDec_replicate_zero (m : Nat) : parseDec (List.replicate m '0') = 0 := by
  induction m with
  | zero => rfl
  | succ m ih =>
    show List.foldl _ 0 (List.replicate (m + 1) '0') = 0
    rw [List.replicate_succ, List.foldl_cons]
    have : (10 * 0 + ('0'.toNat - 48)) = 0 := by decide
    rw [this]
    exact ih

/-- The value of the nonce string: `secs * 10^9 + nanos`, provided the
sub-second part is indeed below `10^9` (guaranteed by
`Duration::subsec_nanos`). -/
theorem nonceChars_val (s n : Nat) (h : n < 10 ^ 9) :
    parseDec (nonceChars s n) = s * 10 ^ 9 + n := by
  have hlen : (zeroPad 9 (natDecimal n)).length = 9 := by
    have := natDecimal_length9 n h
    simp only [zeroPad, List.length_append, List.length_replicate]
    omega
  have hval : parseDec (zeroPad 9 (natDecimal n)) = n := by
    simp only [zeroPad]
    rw [parseDec_append, parseDec_replicate_zero, parseDec_natDecimal]
    ring
  unfold nonceChars
  rw [parseDec_append, hlen, hval, parseDec_natDecimal]

/-- Nonces are strictly increasing in the clock reading. -/
theorem nonceChars_lt (s1 n1 s2 n2 : Nat) (h1 : n1 < 10 ^ 9) (h2 : n2 < 10 ^ 9)
    (hlt : readingLt (s1, n1) (s2, n2)) :
    parseDec (nonceChars s1 n1) < parseDec (nonceChars s2 n2) := by
  rw [nonceChars_val s1 n1 h1, nonceChars_val s2 n2 h2]
  have e : (10 : Nat) ^ 9 = 1000000000 := by norm_num
  rw [e] at h1 h2 ⊢
  unfold readingLt at hlt
  dsimp only at hlt
  rcases hlt with hs | ⟨hs, hn⟩
  · omega
  · omega

/-! ## Helper lemmas: the body encoder -/

theorem encodeBody_fold_shift (ps : List (List Char × List Char)) (a : List Char) :
    List.foldl (fun data item => data ++ item.1 ++ '=' :: item.2 ++ ['&']) a ps =
      a ++ (ps.map (fun p => entryChars p ++ ['&'])).flatten := by
  induction ps generalizing a with
  | nil => simp
  | cons p t ih =>
    simp only [List.foldl_cons, List.map_cons, List.flatten_cons, ih, entryChars]
    simp [List.append_assoc]

theorem dropLast_flatten_amp :
    ∀ ls : List (List Char), ((ls.map (fun l => l ++ ['&'])).flatten).dropLast = joinAmp ls
  | [] => by simp [joinAmp]
  | [p] => by simp [joinAmp]
  | p :: q :: ps => by
    have hne : ((q :: ps).map (fun l => l ++ ['&'])).flatten ≠ [] := by
      simp only [List.map_cons, List.flatten_cons]
      intro hc
      have := congrArg List.length hc
      simp at this
    simp only [List.map_cons, List.flatten_cons] at hne ⊢
    rw [List.dropLast_append_of_ne_nil _ hne]
    have ih := dropLast_flatten_amp (q :: ps)
    simp only [List.map_cons, List.flatten_cons] at ih
    rw [ih]
    simp [joinAmp, List.append_assoc]

/-- The source's fold-and-pop body construction equals the spec's
"entries joined by `&` with no trailing separator" form. -/
theorem encodeBody_eq_specEncode (ps : List (List Char × List Char)) :
    encodeBody ps = specEncode ps := by
  unfold encodeBody specEncode
  rw [encodeBody_fold_shift, List.nil_append]
  have : ps.map (fun p => entryChars p ++ ['&']) = (ps.map entryChars).map (fun l => l ++ ['&']) := by
    rw [List.map_map]
    rfl
  rw [this, dropLast_flatten_amp]

/-! ## Helper lemmas: permutations of encoded bodies -/

theorem perm_flatten {α : Type} {l1 l2 : List (List α)} (h : l1.Perm l2) :
    l1.flatten.Perm l2.flatten := by
  induction h with
  | nil => exact List.Perm.refl _
  | cons x _ ih =>
    simp only [List.flatten_cons]
    exact ih.append_left x
  | swap x y l =>
    simp only [List.flatten_cons]
    rw [← List.append_assoc, ← List.append_assoc]
    exact List.perm_append_comm.append_right _
  | trans _ _ ih1 ih2 => exact ih1.trans ih2

theorem joinAmp_perm_aux :
    ∀ ls : List (List Char), (joinAmp ls).Perm (ls.flatten ++ List.replicate (ls.length - 1) '&')
  | [] => by simp [joinAmp]
  | [p] => by simp [joinAmp]
  | p :: q :: ps => by
    have ih := joinAmp_perm_aux (q :: ps)
    simp only [joinAmp, List.flatten_cons, List.length_cons]
    have step1 : (p ++ '&' :: joinAmp (q :: ps)).Perm
        (p ++ '&' :: ((q :: ps).flatten ++ List.replicate ((q :: ps).length - 1) '&')) :=
      (ih.cons '&').append_left p
    refine step1.trans ?_
    have step2 : ('&' :: ((q :: ps).flatten ++ List.replicate ((q :: ps).length - 1) '&')).Perm
        ((q :: ps).flatten ++ '&' :: List.replicate ((q :: ps).length - 1) '&') :=
      List.perm_middle.symm
    refine (step2.append_left p).trans ?_
    rw [← List.replicate_succ]
    simp only [List.length_cons, List.flatten_cons]
    rw [← List.append_assoc]
    have : ps.length + 1 - 1 + 1 = ps.length + 1 + 1 - 1 := by omega
    rw [this]

theorem joinAmp_perm {l1 l2 : List (List Char)} (h : l1.Perm l2) :
    (joinAmp l1).Perm (joinAmp l2) := by
  refine (joinAmp_perm_aux l1).trans (List.Perm.trans ?_ (joinAmp_perm_aux l2).symm)
  have hlen : l1.length = l2.length := h.length_eq
  rw [hlen]
  exact (perm_flatten h).append_right _

/-! ## Helper lemmas: association-list lookups and insertion -/

theorem lookupParam_append (k : List Char) :
    ∀ l r, lookupParam k (l ++ r) =
      match lookupParam k l with
      | some v => some v
      | none => lookupParam k r := by
  intro l r
  induction l with
  | nil => simp [lookupParam]
  | cons p t ih =>
    rcases p with ⟨k', v⟩
    by_cases h : k' = k
    · simp [lookupParam, h]
    · simp only [List.cons_append, lookupParam, if_neg h]
      exact ih

theorem lookupParam_eq_none (k : List Char) :
    ∀ ps, k ∉ ps.map Prod.fst → lookupParam k ps = none := by
  intro ps
  induction ps with
  | nil => intro; rfl
  | cons p t ih =>
    intro h
    simp only [List.map_cons, List.mem_cons] at h
    push_neg at h
    simp only [lookupParam]
    rw [if_neg (fun hc : p.1 = k => h.1 hc.symm)]
    exact ih h.2

theorem lookupParam_extract (k : List Char) (v : List Char) :
    ∀ ps, lookupParam k ps = some v →
      ∃ l r, ps = l ++ (k, v) :: r ∧ k ∉ l.map Prod.fst := by
  intro ps
  induction ps with
  | nil => intro h; simp [lookupParam] at h
  | cons p t ih =>
    intro h
    rcases p with ⟨k', v'⟩
    simp only [lookupParam] at h
    split at h
    · rename_i hk
      injection h with hv
      subst hk
      subst hv
      exact ⟨[], t, rfl, by simp⟩
    · rename_i hk
      obtain ⟨l, r, rfl, hnot⟩ := ih h
      refine ⟨(k', v') :: l, r, rfl, ?_⟩
      simp only [List.map_cons, List.mem_cons]
      push_neg
      exact ⟨fun hc => hk hc.symm, hnot⟩

theorem perm_of_lookup_eq :
    ∀ (l1 l2 : List (List Char × List Char)), keysNodup l1 → keysNodup l2 →
      (∀ k, lookupParam k l1 = lookupParam k l2) → l1.Perm l2
  | [], l2, _, _, hl => by
    cases l2 with
    | nil => exact List.Perm.refl []
    | cons p t =>
      have := hl p.1
      simp [lookupParam] at this
  | (k, v) :: t1, l2, h1, h2, hl => by
    have hk : lookupParam k l2 = some v := by
      rw [← hl k]
      simp [lookupParam]
    obtain ⟨la, lb, rfl, hnotin⟩ := lookupParam_extract k v l2 hk
    have hmid : (la ++ (k, v) :: lb).Perm ((k, v) :: (la ++ lb)) := List.perm_middle
    have h2' : keysNodup ((k, v) :: (la ++ lb)) := (hmid.map Prod.fst).nodup h2
    have h2cons := List.nodup_cons.mp h2'
    have h1cons := List.nodup_cons.mp h1
    have hlook : ∀ q, lookupParam q t1 = lookupParam q (la ++ lb) := by
      intro q
      by_cases hq : q = k
      · subst hq
        rw [lookupParam_eq_none _ t1 h1cons.1, lookupParam_eq_none _ (la ++ lb) h2cons.1]
      · have e1 : lookupParam q ((k, v) :: t1) = lookupParam q t1 := by
          simp only [lookupParam]
          rw [if_neg (fun hc : k = q => hq hc.symm)]
        have e2 : lookupParam q ((k, v) :: lb) = lookupParam q lb := by
          simp only [lookupParam]
          rw [if_neg (fun hc : k = q => hq hc.symm)]
        have hstep := hl q
        rw [e1] at hstep
        rw [hstep, lookupParam_append, lookupParam_append, e2]
    have ih := perm_of_lookup_eq t1 (la ++ lb) h1cons.2 h2cons.2 hlook
    exact (ih.cons (k, v)).trans hmid.symm

theorem lookupParam_insert_self (k v : List Char) :
    ∀ ps, lookupParam k (insertParam k v ps) = some v := by
  intro ps
  induction ps with
  | nil => simp [insertParam, lookupParam]
  | cons p t ih =>
    rcases p with ⟨k', v'⟩
    by_cases h : k' = k
    · simp [insertParam, if_pos h, lookupParam]
    · simp only [insertParam, if_neg h, lookupParam]
      exact ih

theorem lookupParam_insert_other (k v q : List Char) (hq : q ≠ k) :
    ∀ ps, lookupParam q (insertParam k v ps) = lookupParam q ps := by
  intro ps
  induction ps with
  | nil =>
    simp only [insertParam, lookupParam]
    rw [if_neg (fun hc : k = q => hq hc.symm)]
  | cons p t ih =>
    rcases p with ⟨k', v'⟩
    by_cases h : k' = k
    · subst h
      simp only [insertParam, if_pos rfl, lookupParam]
      rw [if_neg (fun hc : k' = q => hq hc.symm), if_neg (fun hc : k' = q => hq hc.symm)]
    · simp only [insertParam, if_neg h, lookupParam]
      by_cases h2 : k' = q
      · rw [if_pos h2, if_pos h2]
      · rw [if_neg h2, if_neg h2]
        exact ih

theorem insertParam_insertParam (k v w : List Char) :
    ∀ ps, insertParam k v (insertParam k w ps) = insertParam k v ps := by
  intro ps
  induction ps with
  | nil => simp [insertParam]
  | cons p t ih =>
    rcases p with ⟨k', v'⟩
    by_cases h : k' = k
    · simp [insertParam, if_pos h]
    · simp only [insertParam, if_neg h]
      rw [ih]

/-! ## Helper lemmas: digest size -/

theorem toBE_length (k n : Nat) : (toBE k n).length = k := by
  simp [toBE]

theorem shaHash_length (c : ShaCfg) (msg : List Nat) :
    (shaHash c msg).length = 8 * c.wordBytes := by
  simp only [shaHash, List.length_append, toBE_length]
  ring

/-- The SHA-256 digest is exactly 32 bytes (the `[u8; 32]` buffer of the
source). -/
theorem sha256_length (msg : List Nat) : (sha256 msg).length = 32 :=
  shaHash_length sha256Cfg msg

/-! ## The claims -/

/-- C1: for every secret that decodes from base64, the signing operation
returns the base64 encoding of HMAC-SHA512 keyed with the decoded secret
bytes, applied to the path bytes concatenated directly in front of the
32-byte SHA-256 digest of the nonce bytes concatenated directly in front
of the body bytes. -/
theorem c1_signature_algorithm (secret path nonce : List Char) (bodyBytes : List Nat)
    (key : List Nat) (h : base64decode secret = some key) :
    signImpl secret path nonce bodyBytes =
      some (base64encode (hmacSha512 key
        (utf8Bytes path ++ sha256 (utf8Bytes nonce ++ bodyBytes)))) ∧
    (sha256 (utf8Bytes nonce ++ bodyBytes)).length = 32 := by
  constructor
  · simp [signImpl, h, hmacNew, hmacInput, hmacResult, sha256New, sha256Input, sha256Result]
  · exact sha256_length _

/-- Witness for C1 at a concrete secret, path, nonce and body. -/
theorem c1_signature_algorithm_witness :
    base64decode (strL "AAAA") = some [0, 0, 0] ∧
    (signImpl (strL "AAAA") (strL "/0/private/Balance") (strL "1616492376594123456")
        (utf8Bytes (strL "nonce=1616492376594123456")) =
      some (base64encode (hmacSha512 [0, 0, 0]
        (utf8Bytes (strL "/0/private/Balance") ++
          sha256 (utf8Bytes (strL "1616492376594123456") ++
            utf8Bytes (strL "nonce=1616492376594123456"))))) ∧
     (sha256 (utf8Bytes (strL "1616492376594123456") ++
        utf8Bytes (strL "nonce=1616492376594123456"))).length = 32) :=
  ⟨by decide,
   c1_signature_algorithm (strL "AAAA") (strL "/0/private/Balance")
     (strL "1616492376594123456") (utf8Bytes (strL "nonce=1616492376594123456"))
     [0, 0, 0] (by decide)⟩

/-- C5: the nonce is the decimal seconds value concatenated with the
sub-second fraction zero-padded to exactly 9 digits, so later clock
readings give strictly larger nonce values. -/
theorem c5_nonce_format (s1 n1 s2 n2 : Nat) (h1 : n1 < 10 ^ 9) (h2 : n2 < 10 ^ 9)
    (hlt : readingLt (s1, n1) (s2, n2)) :
    nonceChars s1 n1 = natDecimal s1 ++ zeroPad 9 (natDecimal n1) ∧
    (zeroPad 9 (natDecimal n1)).length = 9 ∧
    parseDec (nonceChars s1 n1) < parseDec (nonceChars s2 n2) := by
  refine ⟨rfl, ?_, nonceChars_lt s1 n1 s2 n2 h1 h2 hlt⟩
  have := natDecimal_length9 n1 h1
  simp only [zeroPad, List.length_append, List.length_replicate]
  omega

/-- Witness for C5 at two concrete clock readings. -/
theorem c5_nonce_format_witness :
    (7 : Nat) < 10 ^ 9 ∧ (8 : Nat) < 10 ^ 9 ∧ readingLt (5, 7) (5, 8) ∧
    (nonceChars 5 7 = natDecimal 5 ++ zeroPad 9 (natDecimal 7) ∧
     (zeroPad 9 (natDecimal 7)).length = 9 ∧
     parseDec (nonceChars 5 7) < parseDec (nonceChars 5 8)) :=
  ⟨by norm_num, by norm_num, by decide,
   c5_nonce_format 5 7 5 8 (by norm_num) (by norm_num) (by decide)⟩

/-- C6: the encoder emits one `key=value` pair per entry joined by `&`
with no trailing separator, keys and values passed through unescaped, and
the empty parameter set encodes to the empty string. -/
theorem c6_encoder_shape :
    (∀ ps : List (List Char × List Char), encodeBody ps = specEncode ps) ∧
    encodeBody [] = [] :=
  ⟨encodeBody_eq_specEncode, rfl⟩

/-- C10: a caller-supplied `"nonce"` entry is silently overwritten by the
fresh nonce: the build result is identical to the one for the map without
the caller's nonce value. -/
theorem c10_caller_nonce_replaced (account : AccountL) (method : List Char)
    (params : List (List Char × List Char)) (v : List Char) (secs nanos : Nat) :
    privateResult account method (insertParam (strL "nonce") v params) secs nanos =
      privateResult account method params secs nanos := by
  simp only [privateResult, insertParam_insertParam]

/-- C3 counterexample: two parameter sets equal as mappings (the same
entries, permuted as a `HashMap`'s arbitrary iteration order may present
them) encode to different body strings. -/
theorem c3_counterexample :
    [(strL "a", strL "1"), (strL "b", strL "2")].Perm
      [(strL "b", strL "2"), (strL "a", strL "1")] ∧
    keysNodup [(strL "a", strL "1"), (strL "b", strL "2")] ∧
    keysNodup [(strL "b", strL "2"), (strL "a", strL "1")] ∧
    encodeBody [(strL "a", strL "1"), (strL "b", strL "2")] ≠
      encodeBody [(strL "b", strL "2"), (strL "a", strL "1")] := by
  refine ⟨?_, by decide, by decide, by decide⟩
  exact List.Perm.swap (strL "b", strL "2") (strL "a", strL "1") []

/-- C3 amended: encoding is a pure function of the iteration sequence;
two parameter sets equal as key-to-value mappings encode to bodies that
are character permutations of each other, but not necessarily to
byte-identical strings. -/
theorem c3_amended_encode_perm (l1 l2 : List (List Char × List Char))
    (h1 : keysNodup l1) (h2 : keysNodup l2)
    (hl : ∀ k, lookupParam k l1 = lookupParam k l2) :
    (encodeBody l1).Perm (encodeBody l2) := by
  rw [encodeBody_eq_specEncode, encodeBody_eq_specEncode]
  unfold specEncode
  exact joinAmp_perm ((perm_of_lookup_eq l1 l2 h1 h2 hl).map entryChars)

/-- Witness for the amended C3 at two concrete equal mappings. -/
theorem c3_amended_encode_perm_witness :
    keysNodup [(strL "a", strL "1"), (strL "b", strL "2")] ∧
    (encodeBody [(strL "a", strL "1"), (strL "b", strL "2")]).Perm
      (encodeBody [(strL "b", strL "2"), (strL "a", strL "1")]) :=
  ⟨by decide,
   c3_amended_encode_perm [(strL "a", strL "1"), (strL "b", strL "2")]
     [(strL "b", strL "2"), (strL "a", strL "1")] (by decide) (by decide)
     (fun k => by
       simp only [lookupParam]
       by_cases ha : strL "a" = k
       · have hb : ¬ strL "b" = k := fun hc => absurd (ha.trans hc.symm) (by decide)
         rw [if_pos ha, if_neg hb, if_pos ha]
       · by_cases hb : strL "b" = k
         · rw [if_neg ha, if_pos hb, if_pos hb]
         · rw [if_neg ha, if_neg hb, if_neg hb, if_neg ha])⟩

/-- C4 counterexample: two consecutive generations within the same clock
tick return equal nonce values, so the generated sequence is not strictly
increasing. -/
theorem c4_counterexample :
    nonceChars 5 7 = nonceChars 5 7 ∧
    ¬ List.Chain' (· < ·) (nonceValues [(5, 7), (5, 7)]) := by
  refine ⟨rfl, fun h => ?_⟩
  unfold nonceValues at h
  simp only [List.map_cons, List.map_nil] at h
  exact absurd (List.chain'_cons.mp h).1 (lt_irrefl _)

/-- C4 amended: the nonce sequence is strictly increasing provided the
successive clock readings are strictly increasing; the generator has no
process-local sequencing, so equal clock readings give equal nonces. -/
theorem c4_amended_nonce_monotone (rs : List (Nat × Nat))
    (h9 : ∀ r ∈ rs, r.2 < 10 ^ 9)
    (hinc : List.Chain' readingLt rs) :
    List.Chain' (· < ·) (nonceValues rs) := by
  unfold nonceValues
  rw [List.chain'_map]
  induction rs with
  | nil => simp
  | cons a t ih =>
    cases t with
    | nil => simp
    | cons b t2 =>
      rw [List.chain'_cons] at hinc ⊢
      constructor
      · have := nonceChars_lt a.1 a.2 b.1 b.2 (h9 a (by simp)) (h9 b (by simp))
        apply this
        have h := hinc.1
        unfold readingLt at h ⊢
        simpa using h
      · exact ih (fun r hr => h9 r (List.mem_cons_of_mem a hr)) hinc.2

/-- Witness for the amended C4 at a concrete strictly increasing run of
clock readings. -/
theorem c4_amended_nonce_monotone_witness :
    List.Chain' (· < ·) (nonceValues [(1, 2), (1, 3), (2, 0)]) :=
  c4_amended_nonce_monotone [(1, 2), (1, 3), (2, 0)] (by decide)
    (List.chain'_cons.mpr ⟨Or.inr ⟨rfl, by norm_num⟩,
      List.chain'_cons.mpr ⟨Or.inl (by norm_num), List.chain'_singleton _⟩⟩)

/-- C7: whenever the secret decodes, the built request has method POST,
URL equal to the fixed host followed by `"/0/private/" ++ method`, the
`API-Key` header carrying the credential's key, and the `API-Sign` header
carrying exactly the signature of the signing operation applied to the
secret, the path, the nonce and the hashed body bytes. -/
theorem c7_request_shape (account : AccountL) (method : List Char)
    (params : List (List Char × List Char)) (secs nanos : Nat) :
    (privateResult account method params secs nanos).map (fun x => x.1.rmethod) =
      (base64decode account.secret).map (fun _ => strL "POST") ∧
    (privateResult account method params secs nanos).map (fun x => x.1.url) =
      (base64decode account.secret).map
        (fun _ => strL "https://api.kraken.com" ++ (strL "/0/private/" ++ method)) ∧
    (privateResult account method params secs nanos).map (fun x => x.1.apiKey) =
      (base64decode account.secret).map (fun _ => account.key) ∧
    (privateResult account method params secs nanos).map (fun x => x.1.apiSign) =
      signImpl account.secret (strL "/0/private/" ++ method) (nonceChars secs nanos)
        (utf8Bytes (encodeBody (insertParam (strL "nonce") (nonceChars secs nanos) params))) := by
  cases hd : base64decode account.secret with
  | none => simp [privateResult, signImpl, hd]
  | some key => simp [privateResult, signImpl, hd]

/-- C8 counterexample: calling the builder with an empty caller map
leaves the caller's map holding the nonce entry — the nonce is inserted
into the caller's mapping itself, not into a copy. -/
theorem c8_counterexample :
    (privateResult ⟨strL "key", strL ""⟩ (strL "Balance") [] 5 7).map (fun x => x.2) =
      some [(strL "nonce", nonceChars 5 7)] ∧
    ([] : List (List Char × List Char)) ≠ [(strL "nonce", nonceChars 5 7)] := by
  constructor
  · decide
  · simp

/-- C8 amended: the builder mutates the caller's mapping in place: after
the call it holds the fresh nonce under `"nonce"`, and every other key
still maps to its original value. -/
theorem c8_amended_params_mutation (account : AccountL) (method : List Char)
    (params : List (List Char × List Char)) (secs nanos : Nat) (q : List Char)
    (hq : q ≠ strL "nonce") :
    (privateResult account method params secs nanos).map (fun x => lookupParam q x.2) =
      (base64decode account.secret).map (fun _ => lookupParam q params) ∧
    (privateResult account method params secs nanos).map
        (fun x => lookupParam (strL "nonce") x.2) =
      (base64decode account.secret).map (fun _ => some (nonceChars secs nanos)) := by
  cases hd : base64decode account.secret with
  | none => simp [privateResult, hd]
  | some key =>
    constructor
    · simp [privateResult, hd, lookupParam_insert_other _ _ _ hq]
    · simp [privateResult, hd, lookupParam_insert_self]

/-- Witness for the amended C8 at a concrete map and key. -/
theorem c8_amended_params_mutation_witness :
    strL "a" ≠ strL "nonce" ∧
    ((privateResult ⟨strL "key", strL ""⟩ (strL "Balance") [(strL "a", strL "1")] 5 7).map
        (fun x => lookupParam (strL "a") x.2) =
      (base64decode (strL "")).map (fun _ => lookupParam (strL "a") [(strL "a", strL "1")]) ∧
     (privateResult ⟨strL "key", strL ""⟩ (strL "Balance") [(strL "a", strL "1")] 5 7).map
        (fun x => lookupParam (strL "nonce") x.2) =
      (base64decode (strL "")).map (fun _ => some (nonceChars 5 7))) :=
  ⟨by decide,
   c8_amended_params_mutation ⟨strL "key", strL ""⟩ (strL "Balance")
     [(strL "a", strL "1")] 5 7 (strL "a") (by decide)⟩

/-- C9: a secret that is not valid base64 makes the signing fail before
any request is produced (the `unwrap` panic, modelled as `none`); a valid
secret makes that branch unreachable, and the decoded raw bytes key the
HMAC of the signature. -/
theorem c9_secret_decode (account : AccountL) (method : List Char)
    (params : List (List Char × List Char)) (secs nanos : Nat) :
    (base64decode account.secret = none →
      privateResult account method params secs nanos = none) ∧
    (∀ key, base64decode account.secret = some key →
      (privateResult account method params secs nanos).map (fun x => x.1.apiSign) =
        some (base64encode (hmacSha512 key (utf8Bytes (strL "/0/private/" ++ method) ++
          sha256 (utf8Bytes (nonceChars secs nanos) ++
            utf8Bytes (encodeBody (insertParam (strL "nonce")
              (nonceChars secs nanos) params))))))) := by
  constructor
  · intro hd
    simp [privateResult, hd]
  · intro key hd
    simp [privateResult, hd, hmacNew, hmacInput, hmacResult, sha256New, sha256Input, sha256Result]

/-- Witness for C9: a concrete invalid secret fails, a concrete valid
secret signs with the decoded bytes. -/
theorem c9_secret_decode_witness :
    base64decode (strL "!!!") = none ∧
    privateResult ⟨strL "key", strL "!!!"⟩ (strL "Balance") [] 5 7 = none ∧
    base64decode (strL "AAAA") = some [0, 0, 0] ∧
    (privateResult ⟨strL "key", strL "AAAA"⟩ (strL "Balance") [] 5 7).map
        (fun x => x.1.apiSign) =
      some (base64encode (hmacSha512 [0, 0, 0]
        (utf8Bytes (strL "/0/private/" ++ strL "Balance") ++
          sha256 (utf8Bytes (nonceChars 5 7) ++
            utf8Bytes (encodeBody (insertParam (strL "nonce") (nonceChars 5 7) [])))))) :=
  ⟨by decide,
   (c9_secret_decode ⟨strL "key", strL "!!!"⟩ (strL "Balance") [] 5 7).1 (by decide),
   by decide,
   (c9_secret_decode ⟨strL "key", strL "AAAA"⟩ (strL "Balance") [] 5 7).2 [0, 0, 0] (by decide)⟩

/-- C2: the body handed to the transport is `.form(params)`'s
form-urlencoded serialization, not the manually folded string that was
hashed; at a parameter value containing a space the two differ, so the
signature does not cover the transported bytes. -/
theorem c2_transport_body_mismatch :
    (privateResult ⟨strL "key", strL ""⟩ (strL "Balance") [(strL "a", strL "b c")] 5 7).map
        (fun x => x.1.rbody) =
      some (strL "a=b+c&nonce=5000000007") ∧
    (privateResult ⟨strL "key", strL ""⟩ (strL "Balance") [(strL "a", strL "b c")] 5 7).map
        (fun x => encodeBody x.2) =
      some (strL "a=b c&nonce=5000000007") ∧
    (privateResult ⟨strL "key", strL ""⟩ (strL "Balance") [(strL "a", strL "b c")] 5 7).map
        (fun x => x.1.rbody) ≠
      (privateResult ⟨strL "key", strL ""⟩ (strL "Balance") [(strL "a", strL "b c")] 5 7).map
        (fun x => encodeBody x.2) := by
  exact ⟨by decide, by decide, by decide⟩
